import Mathlib

set_option maxRecDepth 100000

/-!
Verification of the generational-index allocator library (`gen_id`).

The Rust source is embedded shallowly:

* `Gen` (a `NonZeroU16` generation counter) becomes a `Nat` whose valid
  values are `1 ..= 65535`; `Gen::next` (wrapping add, skipping 0) becomes
  `genNext`.
* `Id<E>` for a dynamic entity becomes `IdD`, a pair of a slot index
  (`NonMaxU32`, so `index < 2^32 - 1`) and a generation.
* `AllocGen` (a CRC-32 running checksum, `crc32fast` with the IEEE
  polynomial, little-endian byte order) becomes `allocGenIncrement` /
  `checksumFold` over `Nat` values `< 2^32`.
* `Allocator<E>` becomes `Alloc`: a list of slot `Entry`s, the free-list
  head `nextDead`, and the checksum `gen`.  Panics are modelled by
  `Option`-valued operations.
* `RawComponent<E, T>` (a dense `Vec`-backed store) becomes a `List T`
  with `insert` / `insertWith`; `insert`'s panicking fill is the `none`
  branch of an `Option` result.
* `RawLinks` (parent/child relation maps) are modelled for the set-backed
  flavours: `CompSet` (dense children component) and `MapSet` (hash-map
  children); hash sets become duplicate-free lists, the hash map an
  association list.  The `cfg(debug_assertions)` checksum bookkeeping
  fields of `RawLinks`, which no queried operation reads, are omitted.
-/

namespace GenId

/-- `Gen::MIN`: the smallest generation, `NonZeroU16::new(1)`. -/
def genMin : Nat := 1

/-- `Gen::next` from `src/gen.rs`: `wrapping_add(1)` on the underlying
`u16`, mapping the forbidden value 0 back to `Gen::MIN`. -/
def genNext (g : Nat) : Nat :=
  let w := (g + 1) % 65536
  if w = 0 then genMin else w

/-- A dynamic-entity handle `Id<E>`: slot index (`NonMaxU32`) plus
generation (`Gen`). -/
structure IdD where
  index : Nat
  gen : Nat
deriving DecidableEq, Repr

/-- Validity of the machine-level representation of an `IdD`:
the index fits `NonMaxU32` and the generation fits `NonZeroU16`. -/
def IdD.Valid (id : IdD) : Prop :=
  id.index < 2 ^ 32 - 1 ∧ 1 ≤ id.gen ∧ id.gen ≤ 65535

instance (id : IdD) : Decidable id.Valid := by
  unfold IdD.Valid; infer_instance

/-! ### CRC-32 checksum (`crc32fast`, IEEE reflected polynomial)

`AllocGen::increment` runs `crc32fast::Hasher::new_with_initial(self.value)`,
feeds the 4 little-endian bytes of the index and the 2 (native = little
endian on the reference platform) bytes of the generation, and stores the
finalized value.  `crc32fast` keeps the state un-inverted between `update`
calls: one update of bytes `bs` maps state `s` to `¬(fold (¬s) bs)` where
`fold` is the standard reflected bit-by-bit CRC-32 update. -/

/-- The reflected IEEE CRC-32 polynomial. -/
def crcPoly : Nat := 0xEDB88320

/-- All 32 bits set; xor with this is bitwise complement on `u32`. -/
def mask32 : Nat := 0xFFFFFFFF

/-- One bit of the reflected CRC update: shift right, conditionally xor
the polynomial. -/
def crcBitStep (c : Nat) : Nat :=
  if c % 2 = 1 then (c / 2) ^^^ crcPoly else c / 2

/-- Absorb one byte into the raw (un-inverted) CRC state. -/
def crcByte (c b : Nat) : Nat :=
  (List.range 8).foldl (fun acc _ => crcBitStep acc) (c ^^^ b)

/-- Absorb a byte string into the raw CRC state. -/
def crcFold (c : Nat) (bytes : List Nat) : Nat :=
  bytes.foldl crcByte c

/-- The 4 little-endian bytes of a `u32`. -/
def leBytes4 (n : Nat) : List Nat :=
  [n % 256, n / 256 % 256, n / 65536 % 256, n / 16777216 % 256]

/-- The 2 little-endian bytes of a `u16`. -/
def leBytes2 (n : Nat) : List Nat :=
  [n % 256, n / 256 % 256]

/-- `AllocGen::increment` from `src/gen.rs`: fold the killed id's
`(index, gen)` bytes into the running checksum, seeded by the prior
value. -/
def allocGenIncrement (s : Nat) (id : IdD) : Nat :=
  crcFold (s ^^^ mask32) (leBytes4 id.index ++ leBytes2 id.gen) ^^^ mask32

/-- The checksum an `AllocGen::default()` accumulator reaches after
observing the given kill sequence, in order. -/
def checksumFold (ids : List IdD) : Nat :=
  ids.foldl allocGenIncrement 0

/-! ### Allocator (`src/allocator.rs`) -/

/-- A slot entry: `Entry::Alive { index, gen }` or
`Entry::Dead { next_dead, gen }`. -/
inductive Entry where
  | alive (index : Nat) (gen : Nat)
  | dead (nextDead : Option Nat) (gen : Nat)
deriving DecidableEq, Repr

/-- `Entry::id`: the id stored in an alive entry. -/
def Entry.storedId : Entry → Option IdD
  | .alive i g => some ⟨i, g⟩
  | .dead _ _ => none

/-- `Allocator<E>` for a dynamic entity: slot entries, free-list head,
and running checksum. -/
structure Alloc where
  entries : List Entry
  nextDead : Option Nat
  gen : Nat
deriving DecidableEq, Repr

/-- `Allocator::default()`. -/
def Alloc.default0 : Alloc := ⟨[], none, 0⟩

/-- `Allocator::create_new`: append a fresh slot at index `len` with
`Gen::MIN`. -/
def createNew (a : Alloc) : IdD × Alloc :=
  let index := a.entries.length
  let id : IdD := ⟨index, genMin⟩
  (id, { a with entries := a.entries ++ [.alive index genMin] })

/-- `Allocator::create`: pop the free list (`reuse_index`) if possible,
else append (`create_new`).  `none` models the `panic!` in
`reuse_index` when the free-list head points at an alive entry. -/
def createO (a : Alloc) : Option (IdD × Alloc) :=
  match a.nextDead with
  | none => some (createNew a)
  | some i =>
    match a.entries[i]? with
    | none => some (createNew a)
    | some (.dead nd g) =>
      some (⟨⟨i, g⟩,
        { entries := a.entries.set i (.alive i g), nextDead := nd, gen := a.gen }⟩)
    | some (.alive _ _) => none

/-- `Allocator::kill`: succeed only when the slot holds an alive entry
whose stored id equals the argument; then advance the slot's generation,
push the slot on the free list, and fold the killed id into the
checksum. -/
def kill (a : Alloc) (id : IdD) : Bool × Alloc :=
  match a.entries[id.index]? with
  | some e =>
    match e.storedId with
    | some living =>
      if id = living then
        (true,
          { entries := a.entries.set id.index (.dead a.nextDead (genNext id.gen)),
            nextDead := some id.index,
            gen := allocGenIncrement a.gen id })
      else (false, a)
    | none => (false, a)
  | none => (false, a)

/-- `Allocator::is_alive`: the slot holds an alive entry whose stored
generation equals the argument's generation. -/
def isAlive (a : Alloc) (id : IdD) : Bool :=
  match a.entries[id.index]? with
  | some (.alive _ g) => id.gen = g
  | _ => false

/-- The filter loop of `Allocator::kill_many`: kill each id in order,
keeping those for which `kill` returned `true`. -/
def killManyGo (a : Alloc) : List IdD → List IdD × Alloc
  | [] => ([], a)
  | id :: rest =>
    let r := kill a id
    let t := killManyGo r.2 rest
    (if r.1 then id :: t.1 else t.1, t.2)

/-- The `KilledIds` batch: surviving ids plus before/after checksum
snapshots. -/
structure KilledIds where
  ids : List IdD
  before : Nat
  after : Nat
deriving DecidableEq, Repr

/-- `Allocator::kill_many`: snapshot the checksum, kill the batch,
snapshot again. -/
def killMany (a : Alloc) (ids : List IdD) : KilledIds × Alloc :=
  let before := a.gen
  let t := killManyGo a ids
  (⟨t.1, before, t.2.gen⟩, t.2)

/-- `Allocator::ids`: the `(index, generation)` pairs of all currently
alive slots, in slot order (`filter_map(Entry::id)`). -/
def liveIds (a : Alloc) : List IdD :=
  a.entries.filterMap Entry.storedId

/-- The allocator states reachable from `Allocator::default()` by
`create`, `kill` and `kill_many`. -/
inductive Reached : Alloc → Prop
  | init : Reached Alloc.default0
  | create {a : Alloc} {id : IdD} {a' : Alloc} :
      Reached a → createO a = some (id, a') → Reached a'
  | kill {a : Alloc} (id : IdD) : Reached a → Reached (kill a id).2
  | killMany {a : Alloc} (ids : List IdD) : Reached a → Reached (killMany a ids).2

/-! ### Dense value store `RawComponent` (`src/component.rs`) -/

namespace RawComponent

/-- `RawComponent::insert_with`: overwrite in place when the index is
interior, otherwise extend the gap with fill values (the k-th fill call
returns `fill k`) and push the new value. -/
def insertWith {T : Type} (values : List T) (index : Nat) (value : T)
    (fill : Nat → T) : List T :=
  if index < values.length then values.set index value
  else values ++ (List.range (index - values.length)).map fill ++ [value]

/-- `RawComponent::insert`: `insert_with` whose fill closure is
`panic!("invalid index")`; the panic, which fires as soon as the gap to
extend is non-empty, is modelled by `none`. -/
def insert {T : Type} (values : List T) (index : Nat) (value : T) :
    Option (List T) :=
  if index < values.length then some (values.set index value)
  else if values.length = index then some (values ++ [value])
  else none

end RawComponent

/-! ### `IdRange` (`src/lib.rs`) -/

/-- `IdRange<E>`: the half-open index range `start..end` (the `end`
field is named `stop` here because `end` is reserved in Lean). -/
structure IdRangeS where
  start : Nat
  stop : Nat
deriving DecidableEq, Repr

/-- `IdRange::is_empty`: whether the underlying `start..end` range is
empty. -/
def IdRangeS.isEmpty (r : IdRangeS) : Bool :=
  r.stop ≤ r.start

/-- `IdRange::append` from `src/lib.rs`: extend by one when the id's
index equals `end`; otherwise restart from a singleton range when the
range is empty; otherwise panic (`none`). -/
def IdRangeS.append (r : IdRangeS) (i : Nat) : Option IdRangeS :=
  if r.stop = i then some ⟨r.start, r.stop + 1⟩
  else if r.isEmpty then some ⟨i, i + 1⟩
  else none

/-! ### Claim C4: order-sensitive equality of checksums -/

/-- Claim C4, counterexample.  The claim states that two checksum
accumulator values are equal if and only if they observed the same kill
sequence in the same order.  The forward direction holds, but the
converse fails: the accumulator is a 32-bit CRC, and these two distinct
single-kill sequences of representable handles collide. -/
theorem claim_C4_counterexample :
    checksumFold [⟨1890322092, 50890⟩] = checksumFold [⟨3725614683, 63623⟩] ∧
    ([(⟨1890322092, 50890⟩ : IdD)] ≠ [(⟨3725614683, 63623⟩ : IdD)]) ∧
    (⟨1890322092, 50890⟩ : IdD).Valid ∧ (⟨3725614683, 63623⟩ : IdD).Valid := by
  refine ⟨by decide, by decide, by decide, by decide⟩

/-- Claim C4, amended.  Feeding the same kill sequence into the
accumulator always produces the same checksum (the checksum is a
deterministic function of the sequence), and on the spec's concrete
scenarios order sensitivity does hold: killing `(0, MIN)` then
`(1, MIN)` differs from the reversed order and from skipping either
kill.  Equal checksums do not in general imply equal sequences, because
the 32-bit CRC admits collisions. -/
theorem claim_C4_amended :
    (∀ s1 s2 : List IdD, s1 = s2 → checksumFold s1 = checksumFold s2) ∧
    checksumFold [⟨0, 1⟩, ⟨1, 1⟩] ≠ checksumFold [⟨1, 1⟩, ⟨0, 1⟩] ∧
    checksumFold [⟨0, 1⟩, ⟨1, 1⟩] ≠ checksumFold [⟨1, 1⟩] ∧
    checksumFold [⟨0, 1⟩, ⟨1, 1⟩] ≠ checksumFold [⟨0, 1⟩] := by
  refine ⟨fun s1 s2 h => by rw [h], by decide, by decide, by decide⟩

/-- Claim C4, witness: the amended theorem applied at a concrete
sequence. -/
theorem claim_C4_amended_witness :
    checksumFold [⟨0, 1⟩] = checksumFold [⟨0, 1⟩] :=
  claim_C4_amended.1 [⟨0, 1⟩] [⟨0, 1⟩] rfl

/-! ### Claim C5: what the checksum is fed on a kill -/

/-- Checksum update as the SPEC describes it (for comparison with the
code): fold over `(slot_index, new_generation)`, the advanced
generation to be used on the slot's next reuse. -/
def specIncrementNewGen (s : Nat) (id : IdD) : Nat :=
  allocGenIncrement s ⟨id.index, genNext id.gen⟩

/-- Claim C5, counterexample.  The claim states that a successful kill
folds `(slot_index, new_generation)` into the checksum; the code folds
the killed handle's own (old) generation instead.  Concretely: create
one id on a fresh allocator and kill it; the resulting checksum is the
fold of `(0, gen 1)`, not the spec's fold of `(0, gen 2)`. -/
theorem claim_C5_counterexample :
    (kill (createNew Alloc.default0).2 ⟨0, 1⟩).1 = true ∧
    (kill (createNew Alloc.default0).2 ⟨0, 1⟩).2.gen = allocGenIncrement 0 ⟨0, 1⟩ ∧
    (kill (createNew Alloc.default0).2 ⟨0, 1⟩).2.gen ≠ specIncrementNewGen 0 ⟨0, 1⟩ := by
  refine ⟨by decide, by decide, by decide⟩

/-- Claim C5, amended.  On every successful `kill(handle)`, the
allocator updates its running checksum by feeding the pair
`(slot_index, killed_generation)` — the handle's index together with
the handle's own generation (whose successor is what gets stored for
the slot's next reuse) — into the streaming hash seeded by the prior
checksum value. -/
theorem claim_C5_amended (a : Alloc) (id : IdD) (h : (kill a id).1 = true) :
    (kill a id).2.gen = allocGenIncrement a.gen id := by
  unfold kill at h ⊢
  split at h
  next e he =>
    split at h
    next living hl =>
      by_cases hid : id = living
      · subst hid
        simp
      · simp [hid] at h
    next => simp at h
  next => simp at h

/-- Claim C5, witness: the amended theorem applied to the concrete
create-then-kill scenario. -/
theorem claim_C5_amended_witness :
    (kill (createNew Alloc.default0).2 ⟨0, 1⟩).2.gen
      = allocGenIncrement (createNew Alloc.default0).2.gen ⟨0, 1⟩ :=
  claim_C5_amended (createNew Alloc.default0).2 ⟨0, 1⟩ (by decide)

/-! ### Claim C7: dense store insertion -/

/-- Claim C7.  For a dense store of current length `N`:
`insert(handle, value)` with index `N` appends and grows the length to
`N + 1`; with index below `N` it overwrites in place; with index beyond
`N` it panics — unless the explicit fill variant `insert_with` is used,
which extends the gap with caller-supplied fill values and never fills
silently. -/
theorem claim_C7 {T : Type} (values : List T) (i : Nat) (v : T) (fill : Nat → T) :
    (i = values.length →
      RawComponent.insert values i v = some (values ++ [v]) ∧
      (values ++ [v]).length = values.length + 1) ∧
    (i < values.length →
      RawComponent.insert values i v = some (values.set i v) ∧
      (values.set i v).length = values.length) ∧
    (values.length < i → RawComponent.insert values i v = none) ∧
    (values.length < i →
      RawComponent.insertWith values i v fill
        = values ++ (List.range (i - values.length)).map fill ++ [v] ∧
      (RawComponent.insertWith values i v fill).length = i + 1) := by
  refine ⟨?_, ?_, ?_, ?_⟩
  · intro h
    subst h
    simp [RawComponent.insert]
  · intro h
    simp [RawComponent.insert, h, List.length_set]
  · intro h
    simp [RawComponent.insert, Nat.lt_asymm h, Nat.ne_of_lt h]
  · intro h
    have h1 : ¬ i < values.length := Nat.not_lt.mpr (Nat.le_of_lt h)
    constructor
    · simp [RawComponent.insertWith, h1]
    · simp [RawComponent.insertWith, h1]
      omega

/-- Claim C7, witness: appending at the length succeeds, and skipping
ahead without the fill variant panics. -/
theorem claim_C7_witness :
    RawComponent.insert [10, 20] 2 30 = some [10, 20, 30] ∧
    RawComponent.insert ([] : List Nat) 2 9 = none :=
  ⟨((claim_C7 [10, 20] 2 30 (fun _ => 0)).1 rfl).1,
   (claim_C7 ([] : List Nat) 2 9 (fun _ => 0)).2.2.1 (by decide)⟩

/-! ### Claim C10: appending to an empty `IdRange` -/

/-- Claim C10.  The adjacency requirement of `IdRange::append` applies
only to non-empty ranges: appending an id to an empty range (under the
reachable-range invariant `start ≤ end`) never panics, for every
representable index, and yields the one-element range
`[id.index, id.index + 1)`. -/
theorem claim_C10 (r : IdRangeS) (i : Nat) (hinv : r.start ≤ r.stop)
    (hempty : r.isEmpty = true) (_hi : i < 2 ^ 32 - 1) :
    r.append i = some ⟨i, i + 1⟩ := by
  have h1 : r.stop ≤ r.start := by simpa [IdRangeS.isEmpty] using hempty
  have h2 : r.start = r.stop := Nat.le_antisymm hinv h1
  unfold IdRangeS.append
  split
  next h => rw [h2, h]
  next h => simp [hempty]

/-- Claim C10, witness: appending index 7 to the empty range `5..5`
yields `7..8`. -/
theorem claim_C10_witness : IdRangeS.append ⟨5, 5⟩ 7 = some ⟨7, 8⟩ :=
  claim_C10 ⟨5, 5⟩ 7 (by decide) (by decide) (by decide)

/-! ### Claims C2 and C3: kill and reuse -/

/-- Helper: `genNext` never returns its argument: the generation
strictly advances, also at the wraparound `65535 → 1`. -/
theorem genNext_ne (g : Nat) : genNext g ≠ g := by
  show (if (g + 1) % 65536 = 0 then genMin else (g + 1) % 65536) ≠ g
  unfold genMin
  split <;> omega

/-- Helper: `kill` on an out-of-range slot fails and changes nothing. -/
theorem kill_none (a : Alloc) (H : IdD) (h : a.entries[H.index]? = none) :
    kill a H = (false, a) := by
  unfold kill
  rw [h]

/-- Helper: `kill` on a dead slot fails and changes nothing. -/
theorem kill_dead (a : Alloc) (H : IdD) (nd : Option Nat) (g : Nat)
    (h : a.entries[H.index]? = some (.dead nd g)) :
    kill a H = (false, a) := by
  unfold kill
  rw [h]
  simp [Entry.storedId]

/-- Helper: `kill` on a slot alive with a different stored id fails and
changes nothing. -/
theorem kill_alive_ne (a : Alloc) (H : IdD) (idx g : Nat)
    (h : a.entries[H.index]? = some (.alive idx g))
    (hne : (⟨idx, g⟩ : IdD) ≠ H) :
    kill a H = (false, a) := by
  unfold kill
  rw [h]
  simp only [Entry.storedId]
  rw [if_neg (fun hh => hne (Eq.symm hh))]

/-- Helper: a successful `kill` pins down the slot's prior entry and
the whole resulting allocator state. -/
theorem kill_true_elim (a : Alloc) (H : IdD) (h : (kill a H).1 = true) :
    a.entries[H.index]? = some (.alive H.index H.gen) ∧
    (kill a H).2 = ⟨a.entries.set H.index (.dead a.nextDead (genNext H.gen)),
      some H.index, allocGenIncrement a.gen H⟩ := by
  unfold kill at h ⊢
  split at h
  next e he =>
    split at h
    next living hl =>
      by_cases hid : H = living
      · subst hid
        cases e with
        | alive i g =>
          simp only [Entry.storedId, Option.some.injEq] at hl
          rw [he, ← hl]
          simp [Entry.storedId, ← hl]
        | dead nd g => simp [Entry.storedId] at hl
      · simp [hid] at h
    next hl => simp at h
  next he => simp at h

/-- Helper: the length bound extracted from a successful lookup. -/
theorem lt_length_of_getElem?_eq_some {α : Type} {l : List α} {n : Nat} {x : α}
    (h : l[n]? = some x) : n < l.length := by
  rcases List.getElem?_eq_some.mp h with ⟨hh, _⟩
  exact hh

/-- Claim C2.  If `kill(H)` succeeds and `create` is called next, the
returned handle has `H`'s index and the advanced generation
`H.gen.next()`; the old `H` is no longer alive while the new handle is;
and the generation advances (changes) even across the 16-bit
wraparound. -/
theorem claim_C2 (a : Alloc) (H : IdD) (hk : (kill a H).1 = true) :
    ∃ a2 : Alloc,
      createO (kill a H).2 = some (⟨H.index, genNext H.gen⟩, a2) ∧
      genNext H.gen ≠ H.gen ∧
      isAlive (kill a H).2 H = false ∧
      isAlive a2 ⟨H.index, genNext H.gen⟩ = true ∧
      isAlive a2 H = false := by
  obtain ⟨he, ha⟩ := kill_true_elim a H hk
  have hlen : H.index < a.entries.length := lt_length_of_getElem?_eq_some he
  have hset : (a.entries.set H.index
      (Entry.dead a.nextDead (genNext H.gen)))[H.index]?
      = some (.dead a.nextDead (genNext H.gen)) :=
    List.getElem?_set_eq_of_lt _ hlen
  have hlen2 : H.index <
      (a.entries.set H.index (Entry.dead a.nextDead (genNext H.gen))).length := by
    simpa using hlen
  have hset2 : ((a.entries.set H.index (.dead a.nextDead (genNext H.gen))).set H.index
      (.alive H.index (genNext H.gen)))[H.index]?
      = some (.alive H.index (genNext H.gen)) :=
    List.getElem?_set_eq_of_lt _ hlen2
  refine ⟨⟨(a.entries.set H.index (.dead a.nextDead (genNext H.gen))).set H.index
      (.alive H.index (genNext H.gen)), a.nextDead, allocGenIncrement a.gen H⟩,
    ?_, genNext_ne H.gen, ?_, ?_, ?_⟩
  · rw [ha]
    unfold createO
    simp only [hset]
  · rw [ha]
    unfold isAlive
    simp only [hset]
  · unfold isAlive
    simp only [hset2]
    simp
  · unfold isAlive
    simp only [hset2]
    simp
    exact fun h => absurd h.symm (genNext_ne H.gen)

/-- Claim C2, witness: create one handle on a fresh allocator, kill it,
create again. -/
theorem claim_C2_witness :
    ∃ a2 : Alloc,
      createO (kill (createNew Alloc.default0).2 ⟨0, 1⟩).2
        = some (⟨(0 : Nat), genNext 1⟩, a2) ∧
      genNext (1 : Nat) ≠ 1 ∧
      isAlive (kill (createNew Alloc.default0).2 ⟨0, 1⟩).2 ⟨0, 1⟩ = false ∧
      isAlive a2 ⟨0, genNext 1⟩ = true ∧
      isAlive a2 ⟨0, 1⟩ = false :=
  claim_C2 (createNew Alloc.default0).2 ⟨0, 1⟩ (by decide)

/-- Claim C3.  `kill(H)` returns `false` and leaves the allocator
entirely unchanged when the slot is out of range, already dead, or
alive with a different stored id; and after a successful `kill(H)` an
immediately repeated `kill(H)` returns `false` (and changes nothing),
so `kill` reports `true` at most once per live handle value. -/
theorem claim_C3 (a : Alloc) (H : IdD) :
    (a.entries[H.index]? = none → kill a H = (false, a)) ∧
    (∀ nd g, a.entries[H.index]? = some (.dead nd g) → kill a H = (false, a)) ∧
    (∀ idx g, a.entries[H.index]? = some (.alive idx g) →
      (⟨idx, g⟩ : IdD) ≠ H → kill a H = (false, a)) ∧
    ((kill a H).1 = true → kill (kill a H).2 H = (false, (kill a H).2)) := by
  refine ⟨kill_none a H, fun nd g h => kill_dead a H nd g h,
    fun idx g h hne => kill_alive_ne a H idx g h hne, ?_⟩
  intro h
  obtain ⟨he, ha⟩ := kill_true_elim a H h
  have hlen : H.index < a.entries.length := lt_length_of_getElem?_eq_some he
  refine kill_dead _ H a.nextDead (genNext H.gen) ?_
  rw [ha]
  exact List.getElem?_set_eq_of_lt _ hlen

/-- Claim C3, witness: killing on an empty allocator is a no-op, and an
immediately repeated kill of a just-killed handle returns false. -/
theorem claim_C3_witness :
    kill Alloc.default0 ⟨0, 1⟩ = (false, Alloc.default0) ∧
    kill (kill (createNew Alloc.default0).2 ⟨0, 1⟩).2 ⟨0, 1⟩
      = (false, (kill (createNew Alloc.default0).2 ⟨0, 1⟩).2) :=
  ⟨(claim_C3 Alloc.default0 ⟨0, 1⟩).1 (by decide),
   (claim_C3 (createNew Alloc.default0).2 ⟨0, 1⟩).2.2.2 (by decide)⟩

/-! ### Claim C6: `kill_many` batches -/

/-- Helper: `kill` either fails leaving the state unchanged, or
reports success. -/
theorem kill_snd_cases (a : Alloc) (id : IdD) :
    kill a id = (false, a) ∨ (kill a id).1 = true := by
  unfold kill
  split
  next e he =>
    split
    next living hl =>
      by_cases hid : id = living
      · right
        simp [hid]
      · left
        simp [hid]
    next => left; rfl
  next => left; rfl

/-- Helper: an alive entry after a `kill` was already alive, unchanged,
before it (kills only turn entries dead). -/
theorem alive_preserved_kill (a : Alloc) (id : IdD) (i idx g : Nat)
    (h : ((kill a id).2).entries[i]? = some (.alive idx g)) :
    a.entries[i]? = some (.alive idx g) := by
  rcases kill_snd_cases a id with hk | hk
  · rwa [hk] at h
  · obtain ⟨he, ha⟩ := kill_true_elim a id hk
    rw [ha] at h
    by_cases hi : id.index = i
    · subst hi
      rw [List.getElem?_set_eq_of_lt _ (lt_length_of_getElem?_eq_some he)] at h
      cases h
    · rwa [List.getElem?_set_ne hi] at h

/-- Helper: `is_alive` in terms of the slot entry. -/
theorem isAlive_elim (a : Alloc) (x : IdD) (h : isAlive a x = true) :
    ∃ idx, a.entries[x.index]? = some (.alive idx x.gen) := by
  unfold isAlive at h
  split at h
  next idx g he =>
    refine ⟨idx, ?_⟩
    rw [he]
    simp at h
    rw [h]
  next => cases h

/-- Helper: `is_alive` from a matching slot entry. -/
theorem isAlive_intro (a : Alloc) (x : IdD) (idx : Nat)
    (he : a.entries[x.index]? = some (.alive idx x.gen)) :
    isAlive a x = true := by
  unfold isAlive
  rw [he]
  simp

/-- Helper: liveness transfers backwards across a `kill`. -/
theorem isAlive_kill_rev (a : Alloc) (id x : IdD)
    (h : isAlive (kill a id).2 x = true) : isAlive a x = true := by
  obtain ⟨idx, he⟩ := isAlive_elim _ _ h
  exact isAlive_intro _ _ idx (alive_preserved_kill a id _ idx _ he)

/-- Helper: a handle is dead immediately after its successful kill. -/
theorem isAlive_kill_self (a : Alloc) (id : IdD) (h : (kill a id).1 = true) :
    isAlive (kill a id).2 id = false := by
  obtain ⟨he, ha⟩ := kill_true_elim a id h
  rw [ha]
  unfold isAlive
  rw [List.getElem?_set_eq_of_lt _ (lt_length_of_getElem?_eq_some he)]

/-- Helper: every id kept by the `kill_many` loop was alive in the
starting state. -/
theorem killManyGo_mem_alive (l : List IdD) :
    ∀ a : Alloc, ∀ id ∈ (killManyGo a l).1, isAlive a id = true := by
  induction l with
  | nil => intro a id h; cases h
  | cons hd rest ih =>
    intro a id h
    unfold killManyGo at h
    dsimp only at h
    rcases kill_snd_cases a hd with hk | hk
    · rw [hk] at h
      simp only [Bool.false_eq_true, if_false] at h
      exact ih _ id h
    · rw [if_pos hk] at h
      rcases List.mem_cons.mp h with h | h
      · subst h
        obtain ⟨he, _⟩ := kill_true_elim a id hk
        exact isAlive_intro a id id.index he
      · exact isAlive_kill_rev a hd id (ih _ id h)

/-- Helper: the `kill_many` loop keeps a sublist of its input (input
order, only drops elements). -/
theorem killManyGo_sublist (l : List IdD) :
    ∀ a : Alloc, (killManyGo a l).1.Sublist l := by
  induction l with
  | nil => intro a; exact List.Sublist.refl _
  | cons hd rest ih =>
    intro a
    unfold killManyGo
    dsimp only
    by_cases hk : (kill a hd).1 = true
    · rw [if_pos hk]
      exact List.Sublist.cons₂ hd (ih _)
    · rw [if_neg hk]
      exact List.Sublist.cons hd (ih _)

/-- Helper: the ids kept by the `kill_many` loop are pairwise
distinct. -/
theorem killManyGo_pairwise (l : List IdD) :
    ∀ a : Alloc, (killManyGo a l).1.Pairwise (fun x y => x ≠ y) := by
  induction l with
  | nil => intro a; exact List.Pairwise.nil
  | cons hd rest ih =>
    intro a
    unfold killManyGo
    dsimp only
    by_cases hk : (kill a hd).1 = true
    · rw [if_pos hk]
      refine List.Pairwise.cons ?_ (ih _)
      intro x hx heq
      have halive : isAlive (kill a hd).2 x = true :=
        killManyGo_mem_alive rest _ x hx
      rw [← heq] at halive
      rw [isAlive_kill_self a hd hk] at halive
      cases halive
    · rw [if_neg hk]
      exact ih _

/-- Helper: the checksum after the `kill_many` loop is the fold of the
kept ids over the starting checksum. -/
theorem killManyGo_checksum (l : List IdD) :
    ∀ a : Alloc,
      (killManyGo a l).2.gen = (killManyGo a l).1.foldl allocGenIncrement a.gen := by
  induction l with
  | nil => intro a; rfl
  | cons hd rest ih =>
    intro a
    unfold killManyGo
    dsimp only
    rcases kill_snd_cases a hd with hk | hk
    · rw [hk]
      simp only [Bool.false_eq_true, if_false]
      exact ih _
    · obtain ⟨_, ha⟩ := kill_true_elim a hd hk
      rw [if_pos hk]
      simp only [List.foldl_cons]
      rw [ih _, ha]

/-- Claim C6.  `kill_many` returns exactly the handles for which the
underlying `kill` succeeded — a duplicate-free sublist of the input in
input order, all alive in the starting state — together with before and
after snapshots equal to the allocator's checksum immediately before
and immediately after the batch, the after value being the fold of the
kept kills over the before value. -/
theorem claim_C6 (a : Alloc) (ids : List IdD) :
    (killMany a ids).1.before = a.gen ∧
    (killMany a ids).1.after = (killMany a ids).2.gen ∧
    (killMany a ids).1.ids.Sublist ids ∧
    (killMany a ids).1.ids.Pairwise (fun x y => x ≠ y) ∧
    (∀ id ∈ (killMany a ids).1.ids, isAlive a id = true) ∧
    (killMany a ids).2.gen = (killMany a ids).1.ids.foldl allocGenIncrement a.gen :=
  ⟨rfl, rfl, killManyGo_sublist ids a, killManyGo_pairwise ids a,
   killManyGo_mem_alive ids a, killManyGo_checksum ids a⟩

/-- Claim C6, witness: a batch with a duplicate and a stale handle on a
two-slot allocator keeps exactly the two live handles. -/
theorem claim_C6_witness :
    isAlive (createNew (createNew Alloc.default0).2).2 ⟨0, 1⟩ = true ∧
    (killMany (createNew (createNew Alloc.default0).2).2
        [⟨0, 1⟩, ⟨0, 1⟩, ⟨5, 3⟩, ⟨1, 1⟩]).1.ids = [⟨0, 1⟩, ⟨1, 1⟩] :=
  ⟨(claim_C6 (createNew (createNew Alloc.default0).2).2
      [⟨0, 1⟩, ⟨0, 1⟩, ⟨5, 3⟩, ⟨1, 1⟩]).2.2.2.2.1 ⟨0, 1⟩ (by decide),
   by decide⟩

/-! ### Claim C1: uniqueness of live handles -/

/-- The allocator's structural invariant: an alive entry stores the
index of its own slot. -/
abbrev IndexInv (a : Alloc) : Prop :=
  ∀ i idx g : Nat, a.entries[i]? = some (.alive idx g) → idx = i

/-- Helper: the default allocator satisfies the invariant. -/
theorem indexInv_default : IndexInv Alloc.default0 := by
  intro i idx g h
  simp [Alloc.default0] at h

/-- Helper: `create_new` preserves the invariant. -/
theorem indexInv_createNew (a : Alloc) (hi : IndexInv a) :
    IndexInv (createNew a).2 := by
  intro i idx g h
  unfold createNew at h
  dsimp only at h
  by_cases hlt : i < a.entries.length
  · rw [List.getElem?_append_left hlt] at h
    exact hi i idx g h
  · rw [List.getElem?_append_right (Nat.le_of_not_lt hlt)] at h
    have hz : i - a.entries.length = 0 := by
      by_contra hz
      rw [List.getElem?_eq_none] at h
      · cases h
      · simp
        omega
    rw [hz] at h
    simp at h
    omega

/-- Helper: `create` preserves the invariant. -/
theorem indexInv_create (a : Alloc) (id : IdD) (a' : Alloc)
    (h : createO a = some (id, a')) (hi : IndexInv a) : IndexInv a' := by
  rcases hnd : a.nextDead with _ | fi
  · unfold createO at h
    rw [hnd] at h
    rw [Option.some.injEq] at h
    have h2 : a' = (createNew a).2 := by rw [h]
    rw [h2]
    exact indexInv_createNew a hi
  · rcases he : a.entries[fi]? with _ | e
    · unfold createO at h
      rw [hnd] at h
      dsimp only at h
      rw [he] at h
      dsimp only at h
      rw [Option.some.injEq] at h
      have h2 : a' = (createNew a).2 := by rw [h]
      rw [h2]
      exact indexInv_createNew a hi
    · cases e with
      | dead nd g =>
        unfold createO at h
        rw [hnd] at h
        dsimp only at h
        rw [he] at h
        dsimp only at h
        rw [Option.some.injEq, Prod.mk.injEq] at h
        rw [← h.2]
        intro i idx g' hg
        dsimp only at hg
        by_cases hij : fi = i
        · subst hij
          rw [List.getElem?_set_eq_of_lt _ (lt_length_of_getElem?_eq_some he)] at hg
          cases hg
          exact rfl
        · rw [List.getElem?_set_ne hij] at hg
          exact hi i idx g' hg
      | alive idx g =>
        unfold createO at h
        rw [hnd] at h
        dsimp only at h
        rw [he] at h
        dsimp only at h
        cases h

/-- Helper: `kill` preserves the invariant. -/
theorem indexInv_kill (a : Alloc) (id : IdD) (hi : IndexInv a) :
    IndexInv (kill a id).2 := by
  rcases kill_snd_cases a id with hk | hk
  · rw [hk]
    exact hi
  · obtain ⟨he, ha⟩ := kill_true_elim a id hk
    rw [ha]
    intro i idx g hg
    dsimp only at hg
    by_cases hij : id.index = i
    · subst hij
      rw [List.getElem?_set_eq_of_lt _ (lt_length_of_getElem?_eq_some he)] at hg
      cases hg
    · rw [List.getElem?_set_ne hij] at hg
      exact hi i idx g hg

/-- Helper: the `kill_many` loop preserves the invariant. -/
theorem indexInv_killManyGo (l : List IdD) :
    ∀ a : Alloc, IndexInv a → IndexInv (killManyGo a l).2 := by
  induction l with
  | nil => intro a hi; exact hi
  | cons hd rest ih =>
    intro a hi
    unfold killManyGo
    dsimp only
    exact ih _ (indexInv_kill a hd hi)

/-- Helper: every reachable allocator state satisfies the invariant. -/
theorem reached_indexInv (a : Alloc) (h : Reached a) : IndexInv a := by
  induction h with
  | init => exact indexInv_default
  | create hr hc ih => exact indexInv_create _ _ _ hc ih
  | kill id hr ih => exact indexInv_kill _ id ih
  | killMany ids hr ih => exact indexInv_killManyGo ids _ ih

/-- Helper: if every alive entry of a list stores `k +` its position,
the stored ids have strictly increasing indices. -/
theorem pairwise_filterMap_storedId (l : List Entry) :
    ∀ k : Nat, (∀ i idx g, l[i]? = some (.alive idx g) → idx = k + i) →
      (l.filterMap Entry.storedId).Pairwise (fun x y => x.index < y.index) := by
  induction l with
  | nil => intro k hk; exact List.Pairwise.nil
  | cons e t ih =>
    intro k hk
    have ht : ∀ i idx g, t[i]? = some (.alive idx g) → idx = (k + 1) + i := by
      intro i idx g h
      have := hk (i + 1) idx g (by simpa using h)
      omega
    have hmem : ∀ y ∈ t.filterMap Entry.storedId, k < y.index := by
      intro y hy
      rcases List.mem_filterMap.mp hy with ⟨e', he', hse⟩
      rcases List.getElem?_of_mem he' with ⟨j, hj⟩
      cases e' with
      | alive idx g =>
        cases hse
        have := ht j idx g hj
        simp
        omega
      | dead nd g => cases hse
    cases e with
    | alive idx g =>
      have h0 : idx = k := by
        have := hk 0 idx g (by simp [Entry.storedId])
        omega
      simp only [List.filterMap_cons, Entry.storedId]
      refine List.Pairwise.cons ?_ (ih (k + 1) ht)
      intro y hy
      simpa [h0] using hmem y hy
    | dead nd g =>
      simp only [List.filterMap_cons, Entry.storedId]
      exact ih (k + 1) ht

/-- Helper: under the invariant, the live handles are pairwise
distinct. -/
theorem liveIds_pairwise (a : Alloc) (hi : IndexInv a) :
    (liveIds a).Pairwise (fun x y => x ≠ y) := by
  have hp := pairwise_filterMap_storedId a.entries 0
    (fun i idx g h => by
      have := hi i idx g h
      omega)
  exact hp.imp (fun hlt heq => by
    rw [heq] at hlt
    exact Nat.lt_irrefl _ hlt)

/-- Iterated `Allocator::create`: the ids returned by `n` successive
`create` calls, with the final state; `none` if any call panics. -/
def creates : Nat → Alloc → Option (List IdD × Alloc)
  | 0, a => some ([], a)
  | n + 1, a =>
    match createO a with
    | none => none
    | some (id, a') =>
      match creates n a' with
      | none => none
      | some (ids, a'') => some (id :: ids, a'')

/-- Helper: on an allocator with an empty free list, `create` appends
a fresh slot and keeps the free list empty. -/
theorem createO_fresh (a : Alloc) (h : a.nextDead = none) :
    createO a = some (⟨a.entries.length, genMin⟩, (createNew a).2) ∧
      (createNew a).2.nextDead = none ∧
      (createNew a).2.entries.length = a.entries.length + 1 := by
  refine ⟨?_, ?_, ?_⟩
  · unfold createO
    rw [h]
    rfl
  · unfold createNew
    exact h
  · unfold createNew
    dsimp only
    simp

/-- Helper: `n` creates on a free-list-empty allocator return the ids
`(len, MIN), (len+1, MIN), …` in order. -/
theorem creates_fresh (n : Nat) :
    ∀ a : Alloc, a.nextDead = none →
      ∃ a' : Alloc, creates n a
        = some ((List.range n).map (fun k => ⟨a.entries.length + k, genMin⟩), a') := by
  induction n with
  | zero => intro a h; exact ⟨a, by simp [creates]⟩
  | succ n ih =>
    intro a h
    obtain ⟨hc, hnd, hlen⟩ := createO_fresh a h
    obtain ⟨a', ha'⟩ := ih (createNew a).2 hnd
    refine ⟨a', ?_⟩
    unfold creates
    rw [hc]
    dsimp only
    rw [ha']
    dsimp only
    have hlist : (⟨a.entries.length, genMin⟩ : IdD) ::
        (List.range n).map (fun k => (⟨(createNew a).2.entries.length + k, genMin⟩ : IdD))
        = (List.range (n + 1)).map (fun k => (⟨a.entries.length + k, genMin⟩ : IdD)) := by
      rw [List.range_succ_eq_map, List.map_cons, List.map_map]
      refine congrArg₂ List.cons ?_ ?_
      · simp
      · refine List.map_congr_left ?_
        intro k hk
        simp only [Function.comp_apply, hlen, IdD.mk.injEq, and_true]
        omega
    rw [hlist]

/-- Claim C1.  In every allocator state reachable from the default
state by `create`, `kill` and `kill_many`, the `(index, generation)`
pairs of the live handles are pairwise distinct; in particular, any
sequence of `create` calls on a fresh allocator returns pairwise
distinct handles. -/
theorem claim_C1 :
    (∀ a : Alloc, Reached a → (liveIds a).Pairwise (fun x y => x ≠ y)) ∧
    (∀ (n : Nat) (out : List IdD × Alloc), creates n Alloc.default0 = some out →
      out.1.Pairwise (fun x y => x ≠ y)) := by
  constructor
  · intro a hr
    exact liveIds_pairwise a (reached_indexInv a hr)
  · intro n out hout
    obtain ⟨a', ha'⟩ := creates_fresh n Alloc.default0 rfl
    rw [ha'] at hout
    cases hout
    rw [List.pairwise_map]
    refine (List.pairwise_lt_range n).imp ?_
    intro x y hlt heq
    simp only [IdD.mk.injEq] at heq
    omega

/-- Claim C1, witness: a concrete reachable state (one create) and a
concrete pair of creates on the fresh allocator. -/
theorem claim_C1_witness :
    List.Pairwise (fun x y => x ≠ y)
      (liveIds (⟨[Entry.alive 0 1], none, 0⟩ : Alloc)) ∧
    List.Pairwise (fun x y => x ≠ y) [(⟨0, 1⟩ : IdD), ⟨1, 1⟩] :=
  ⟨claim_C1.1 ⟨[Entry.alive 0 1], none, 0⟩
      (Reached.create Reached.init
        (show createO Alloc.default0
            = some ((⟨0, 1⟩ : IdD), (⟨[Entry.alive 0 1], none, 0⟩ : Alloc)) by decide)),
   claim_C1.2 2 ([⟨0, 1⟩, ⟨1, 1⟩], ⟨[.alive 0 1, .alive 1 1], none, 0⟩) (by decide)⟩

/-! ### Relation maps (`src/links.rs`), set-backed flavours -/

/-- `HashSet::insert` on a duplicate-free list: add the element if
absent (iteration order is irrelevant to the claims). -/
def setInsert (c : IdD) (s : List IdD) : List IdD :=
  if c ∈ s then s else s ++ [c]

/-- `RawLinks<Parent, Child, CompSet>`: a dense child-indexed
`Option<Id<Parent>>` component and a dense parent-indexed component of
child-id hash sets.  The `cfg(debug_assertions)` checksum fields, which
none of the modelled operations read, are omitted. -/
structure RawLinksCompSet where
  parent : List (Option IdD)
  children : List (List IdD)
deriving DecidableEq, Repr

/-- `RawLinks::default()`. -/
def RawLinksCompSet.default0 : RawLinksCompSet := ⟨[], []⟩

/-- `get_parent` (CompSet): `self.parent.get(child)?.as_ref()`. -/
def RawLinksCompSet.getParent (l : RawLinksCompSet) (c : IdD) : Option IdD :=
  match l.parent[c.index]? with
  | some o => o
  | none => none

/-- `get_children` (CompSet): `self.children.get(parent)`. -/
def RawLinksCompSet.getChildren (l : RawLinksCompSet) (p : IdD) : Option (List IdD) :=
  l.children[p.index]?

/-- `unlink` (CompSet): take the child's parent slot and remove the
child from that parent's set.  The capacity-based `shrink_to_fit` has
no observable effect in the model. -/
def RawLinksCompSet.unlink (l : RawLinksCompSet) (c : IdD) : RawLinksCompSet :=
  match l.parent[c.index]? with
  | some (some p) =>
    match l.children[p.index]? with
    | some s => ⟨l.parent.set c.index none, l.children.set p.index (s.erase c)⟩
    | none => ⟨l.parent.set c.index none, l.children⟩
  | _ => l

/-- `link` (CompSet): unlink the child, store its new parent
(`insert_with`, gap filled with `None`), and add it to the parent's
set (a fresh singleton set when the slot is missing, gap filled with
default empty sets). -/
def RawLinksCompSet.link (l : RawLinksCompSet) (p c : IdD) : RawLinksCompSet :=
  let l1 := l.unlink c
  let par := RawComponent.insertWith l1.parent c.index (some p) (fun _ => none)
  match l1.children[p.index]? with
  | some s => ⟨par, l1.children.set p.index (setInsert c s)⟩
  | none => ⟨par, RawComponent.insertWith l1.children p.index (setInsert c []) (fun _ => [])⟩

/-- A link/unlink operation on a `CompSet` relation map. -/
inductive LOp where
  | link (p c : IdD)
  | unlink (c : IdD)
deriving DecidableEq, Repr

/-- Apply one operation. -/
def applyOp (l : RawLinksCompSet) : LOp → RawLinksCompSet
  | .link p c => l.link p c
  | .unlink c => l.unlink c

/-- Run a sequence of link/unlink operations from the default (empty)
relation map. -/
def runOps (ops : List LOp) : RawLinksCompSet :=
  ops.foldl applyOp RawLinksCompSet.default0

/-- Claim C8, counterexample.  The claim asserts that after every
sequence of link/unlink operations, `get_parent(c) = Some(p)` iff
`c ∈ get_children(p)`.  The maps are indexed by slot index only, while
sets store full `(index, gen)` ids, so using two generations of the
same child slot breaks the equivalence: link child `(0, gen 1)` to
parent `(0, gen 1)`, then link child `(0, gen 2)` to parent
`(1, gen 1)`; now `(0, gen 1)` is still in the first parent's child set
although `get_parent` reports the second parent. -/
theorem claim_C8_counterexample :
    ¬ (RawLinksCompSet.getParent
        (runOps [.link ⟨0, 1⟩ ⟨0, 1⟩, .link ⟨1, 1⟩ ⟨0, 2⟩]) ⟨0, 1⟩
          = some ⟨0, 1⟩ ↔
      (⟨0, 1⟩ : IdD) ∈ (RawLinksCompSet.getChildren
        (runOps [.link ⟨0, 1⟩ ⟨0, 1⟩, .link ⟨1, 1⟩ ⟨0, 2⟩]) ⟨0, 1⟩).getD []) := by
  decide

/-- Helper: `insert_with` stores the value at the target index. -/
theorem insertWith_getElem_self {T : Type} (v : List T) (i : Nat) (x : T)
    (fill : Nat → T) :
    (RawComponent.insertWith v i x fill)[i]? = some x := by
  unfold RawComponent.insertWith
  split
  next h => exact List.getElem?_set_eq_of_lt _ h
  next h =>
    have hle : v.length ≤ i := Nat.le_of_not_lt h
    have hlen2 : (v ++ (List.range (i - v.length)).map fill).length = i := by
      simp
      omega
    rw [List.getElem?_append_right (by omega)]
    rw [hlen2]
    simp

/-- Helper: `insert_with` lookups away from the target index: old
values survive, the gap holds fill values, beyond is out of range. -/
theorem insertWith_getElem_ne {T : Type} (v : List T) (i : Nat) (x : T)
    (fill : Nat → T) (j : Nat) (hne : j ≠ i) :
    (RawComponent.insertWith v i x fill)[j]? =
      if j < v.length then v[j]?
      else if j < i then some (fill (j - v.length)) else none := by
  unfold RawComponent.insertWith
  split
  next h =>
    by_cases hj : j < v.length
    · rw [List.getElem?_set_ne (fun hh => hne hh.symm), if_pos hj]
    · rw [if_neg hj]
      rw [if_neg (fun hji => hj (Nat.lt_trans hji h))]
      rw [List.getElem?_eq_none]
      simpa using Nat.le_of_not_lt hj
  next h =>
    have hle : v.length ≤ i := Nat.le_of_not_lt h
    have hlen2 : (v ++ (List.range (i - v.length)).map fill).length = i := by
      simp
      omega
    by_cases hj : j < v.length
    · rw [if_pos hj]
      rw [List.getElem?_append_left (by omega)]
      rw [List.getElem?_append_left hj]
    · rw [if_neg hj]
      by_cases hji : j < i
      · rw [if_pos hji]
        rw [List.getElem?_append_left (by omega)]
        rw [List.getElem?_append_right (Nat.le_of_not_lt hj)]
        rw [List.getElem?_map]
        rw [List.getElem?_range (by omega)]
        rfl
      · rw [if_neg hji]
        rw [List.getElem?_append_right (by omega)]
        rw [List.getElem?_eq_none (by simp; omega)]

/-- Helper: membership in a hash-set insert. -/
theorem mem_setInsert (c x : IdD) (s : List IdD) :
    x ∈ setInsert c s ↔ x = c ∨ x ∈ s := by
  unfold setInsert
  split
  next h =>
    constructor
    · exact fun hx => Or.inr hx
    · intro hx
      rcases hx with rfl | hx
      · exact h
      · exact hx
  next h =>
    simp [or_comm]

/-- Helper: hash-set insert preserves duplicate freedom. -/
theorem setInsert_nodup (c : IdD) (s : List IdD) (h : s.Nodup) :
    (setInsert c s).Nodup := by
  unfold setInsert
  split
  next => exact h
  next hc =>
    rw [List.nodup_append]
    exact ⟨h, List.nodup_singleton c,
      fun a ha hb => hc ((List.mem_singleton.mp hb) ▸ ha)⟩

/-- Helper: after `unlink c`, the child's parent slot never holds a
parent id. -/
theorem unlink_parent_self (l : RawLinksCompSet) (c : IdD) (q : IdD) :
    (l.unlink c).parent[c.index]? ≠ some (some q) := by
  unfold RawLinksCompSet.unlink
  rcases hpc : l.parent[c.index]? with _ | o
  · simp [hpc]
  · cases o with
    | none => simp [hpc]
    | some p =>
      have hlen : c.index < l.parent.length := lt_length_of_getElem?_eq_some hpc
      rcases hcp : l.children[p.index]? with _ | s0
      · simp only [hpc, hcp]
        rw [List.getElem?_set_eq_of_lt _ hlen]
        simp
      · simp only [hpc, hcp]
        rw [List.getElem?_set_eq_of_lt _ hlen]
        simp

/-- Index-injectivity of a collection of ids: at most one id per slot
index (as the validator protocol guarantees for live handles). -/
abbrev IndexInjective (xs : List IdD) : Prop :=
  ∀ x1 ∈ xs, ∀ x2 ∈ xs, x1.index = x2.index → x1 = x2

/-- The mutual-inverse invariant of a set-backed relation map, relative
to the parent ids `ps` and child ids `cs` in use: every set member's
parent slot points back at the owning parent, every occupied parent
slot is witnessed in the owner's child set, and the sets are
duplicate-free. -/
structure LinksInv (ps cs : List IdD) (l : RawLinksCompSet) : Prop where
  childMem : ∀ i : Nat, ∀ s : List IdD, l.children[i]? = some s → ∀ c ∈ s,
    c ∈ cs ∧ ∃ q : IdD, l.parent[c.index]? = some (some q) ∧ q ∈ ps ∧ q.index = i
  parentSlot : ∀ i : Nat, ∀ q : IdD, l.parent[i]? = some (some q) → q ∈ ps ∧
    ∃ s : List IdD, l.children[q.index]? = some s ∧ ∃ c ∈ s, c.index = i
  nodup : ∀ i : Nat, ∀ s : List IdD, l.children[i]? = some s → s.Nodup

/-- Helper: the empty relation map satisfies the invariant. -/
theorem linksInv_default (ps cs : List IdD) :
    LinksInv ps cs RawLinksCompSet.default0 := by
  refine ⟨?_, ?_, ?_⟩
  · intro i s hs
    simp [RawLinksCompSet.default0] at hs
  · intro i q hq
    simp [RawLinksCompSet.default0] at hq
  · intro i s hs
    simp [RawLinksCompSet.default0] at hs

/-- Helper: `unlink` on a child with no parent component slot. -/
theorem unlink_eq_none (l : RawLinksCompSet) (c : IdD)
    (h : l.parent[c.index]? = none) : l.unlink c = l := by
  unfold RawLinksCompSet.unlink
  simp [h]

/-- Helper: `unlink` on a child whose parent slot holds `None`. -/
theorem unlink_eq_some_none (l : RawLinksCompSet) (c : IdD)
    (h : l.parent[c.index]? = some none) : l.unlink c = l := by
  unfold RawLinksCompSet.unlink
  simp [h]

/-- Helper: `unlink` on a linked child whose parent has a child set. -/
theorem unlink_eq_found (l : RawLinksCompSet) (c p : IdD) (s0 : List IdD)
    (hp : l.parent[c.index]? = some (some p))
    (hs : l.children[p.index]? = some s0) :
    l.unlink c = ⟨l.parent.set c.index none,
      l.children.set p.index (s0.erase c)⟩ := by
  unfold RawLinksCompSet.unlink
  simp [hp, hs]

/-- Helper: `unlink` on a linked child whose parent has no child set. -/
theorem unlink_eq_nochildren (l : RawLinksCompSet) (c p : IdD)
    (hp : l.parent[c.index]? = some (some p))
    (hs : l.children[p.index]? = none) :
    l.unlink c = ⟨l.parent.set c.index none, l.children⟩ := by
  unfold RawLinksCompSet.unlink
  simp [hp, hs]

/-- Helper: `link` when the parent's child-set slot exists. -/
theorem link_eq_some (l : RawLinksCompSet) (p c : IdD) (s0 : List IdD)
    (hs : (l.unlink c).children[p.index]? = some s0) :
    l.link p c =
      ⟨RawComponent.insertWith (l.unlink c).parent c.index (some p) (fun _ => none),
        (l.unlink c).children.set p.index (setInsert c s0)⟩ := by
  unfold RawLinksCompSet.link
  simp [hs]

/-- Helper: `link` when the parent's child-set slot is missing. -/
theorem link_eq_none (l : RawLinksCompSet) (p c : IdD)
    (hs : (l.unlink c).children[p.index]? = none) :
    l.link p c =
      ⟨RawComponent.insertWith (l.unlink c).parent c.index (some p) (fun _ => none),
        RawComponent.insertWith (l.unlink c).children p.index (setInsert c [])
          (fun _ => [])⟩ := by
  unfold RawLinksCompSet.link
  simp [hs]

/-- Helper: `unlink` preserves the relation-map invariant when the
child ids in use are index-injective. -/
theorem linksInv_unlink (ps cs : List IdD) (l : RawLinksCompSet) (c : IdD)
    (hinjc : IndexInjective cs) (hc : c ∈ cs) (hI : LinksInv ps cs l) :
    LinksInv ps cs (l.unlink c) := by
  rcases hpc : l.parent[c.index]? with _ | o
  · rw [unlink_eq_none l c hpc]
    exact hI
  · cases o with
    | none =>
      rw [unlink_eq_some_none l c hpc]
      exact hI
    | some p =>
      have hplen : c.index < l.parent.length := lt_length_of_getElem?_eq_some hpc
      rcases hcp : l.children[p.index]? with _ | s0
      · rw [unlink_eq_nochildren l c p hpc hcp]
        refine ⟨?_, ?_, ?_⟩
        · intro i s hs c' hc'
          obtain ⟨hcs', q, hq, hqps, hqi⟩ := hI.childMem i s hs c' hc'
          have hne : c'.index ≠ c.index := by
            intro h
            rw [h, hpc] at hq
            cases hq
            rw [← hqi] at hs
            rw [hcp] at hs
            cases hs
          refine ⟨hcs', q, ?_, hqps, hqi⟩
          rw [List.getElem?_set_ne (fun hh => hne hh.symm)]
          exact hq
        · intro i q hq
          by_cases hic : c.index = i
          · subst hic
            rw [List.getElem?_set_eq_of_lt _ hplen] at hq
            cases hq
          · rw [List.getElem?_set_ne hic] at hq
            exact hI.parentSlot i q hq
        · intro i s hs
          exact hI.nodup i s hs
      · have hclen : p.index < l.children.length := lt_length_of_getElem?_eq_some hcp
        rw [unlink_eq_found l c p s0 hpc hcp]
        refine ⟨?_, ?_, ?_⟩
        · intro i s hs c' hc'
          by_cases hip : p.index = i
          · subst hip
            rw [List.getElem?_set_eq_of_lt _ hclen] at hs
            cases hs
            have hmem0 : c' ∈ s0 := List.mem_of_mem_erase hc'
            obtain ⟨hcs', q, hq, hqps, hqi⟩ := hI.childMem p.index s0 hcp c' hmem0
            have hcc : c' ≠ c := by
              intro h
              subst h
              exact absurd hc' (hI.nodup p.index s0 hcp).not_mem_erase
            have hne : c'.index ≠ c.index := fun h => hcc (hinjc c' hcs' c hc h)
            refine ⟨hcs', q, ?_, hqps, hqi⟩
            rw [List.getElem?_set_ne (fun hh => hne hh.symm)]
            exact hq
          · rw [List.getElem?_set_ne hip] at hs
            obtain ⟨hcs', q, hq, hqps, hqi⟩ := hI.childMem i s hs c' hc'
            have hne : c'.index ≠ c.index := by
              intro h
              rw [h, hpc] at hq
              cases hq
              exact hip hqi
            refine ⟨hcs', q, ?_, hqps, hqi⟩
            rw [List.getElem?_set_ne (fun hh => hne hh.symm)]
            exact hq
        · intro i q hq
          by_cases hic : c.index = i
          · subst hic
            rw [List.getElem?_set_eq_of_lt _ hplen] at hq
            cases hq
          · rw [List.getElem?_set_ne hic] at hq
            obtain ⟨hqps, s1, hs1, c1, hc1, hc1i⟩ := hI.parentSlot i q hq
            refine ⟨hqps, ?_⟩
            by_cases hqp : p.index = q.index
            · rw [← hqp] at hs1 ⊢
              rw [hcp] at hs1
              cases hs1
              refine ⟨s0.erase c, ?_, c1, ?_, hc1i⟩
              · rw [List.getElem?_set_eq_of_lt _ hclen]
              · have hc1c : c1 ≠ c := by
                  intro h
                  subst h
                  exact hic (hc1i ▸ rfl)
                exact (List.mem_erase_of_ne hc1c).mpr hc1
            · refine ⟨s1, ?_, c1, hc1, hc1i⟩
              rw [List.getElem?_set_ne hqp]
              exact hs1
        · intro i s hs
          by_cases hip : p.index = i
          · subst hip
            rw [List.getElem?_set_eq_of_lt _ hclen] at hs
            cases hs
            exact (hI.nodup p.index s0 hcp).erase c
          · rw [List.getElem?_set_ne hip] at hs
            exact hI.nodup i s hs

/-- Helper: `link` preserves the relation-map invariant when the ids
in use are index-injective on both sides. -/
theorem linksInv_link (ps cs : List IdD) (l : RawLinksCompSet) (p c : IdD)
    (hinjc : IndexInjective cs) (hp : p ∈ ps) (hc : c ∈ cs)
    (hI : LinksInv ps cs l) : LinksInv ps cs (l.link p c) := by
  have hI1 : LinksInv ps cs (l.unlink c) := linksInv_unlink ps cs l c hinjc hc hI
  have hA : ∀ q : IdD, (l.unlink c).parent[c.index]? ≠ some (some q) :=
    unlink_parent_self l c
  rcases hch : (l.unlink c).children[p.index]? with _ | s0
  · rw [link_eq_none l p c hch]
    refine ⟨?_, ?_, ?_⟩
    · intro i s hs c' hc'
      by_cases hip : i = p.index
      · subst hip
        rw [insertWith_getElem_self] at hs
        cases hs
        have hcc : c' = c := by
          rcases (mem_setInsert c c' []).mp hc' with h | h
          · exact h
          · cases h
        subst hcc
        exact ⟨hc, p, insertWith_getElem_self _ _ _ _, hp, rfl⟩
      · rw [insertWith_getElem_ne _ _ _ _ _ hip] at hs
        split at hs
        · obtain ⟨hcs', q, hq, hqps, hqi⟩ := hI1.childMem i s hs c' hc'
          have hne : c'.index ≠ c.index := by
            intro h
            exact hA q (h ▸ hq)
          refine ⟨hcs', q, ?_, hqps, hqi⟩
          rw [insertWith_getElem_ne _ _ _ _ _ hne,
            if_pos (lt_length_of_getElem?_eq_some hq)]
          exact hq
        · split at hs
          · cases hs
            cases hc'
          · cases hs
    · intro i q hq
      by_cases hic : i = c.index
      · subst hic
        rw [insertWith_getElem_self] at hq
        cases hq
        refine ⟨hp, setInsert c [], insertWith_getElem_self _ _ _ _, c,
          (mem_setInsert c c []).mpr (Or.inl rfl), rfl⟩
      · rw [insertWith_getElem_ne _ _ _ _ _ hic] at hq
        split at hq
        · obtain ⟨hqps, s1, hs1, c1, hc1, hc1i⟩ := hI1.parentSlot i q hq
          have hqp : q.index ≠ p.index := by
            intro h
            rw [h, hch] at hs1
            cases hs1
          refine ⟨hqps, s1, ?_, c1, hc1, hc1i⟩
          rw [insertWith_getElem_ne _ _ _ _ _ hqp,
            if_pos (lt_length_of_getElem?_eq_some hs1)]
          exact hs1
        · split at hq
          · cases hq
          · cases hq
    · intro i s hs
      by_cases hip : i = p.index
      · subst hip
        rw [insertWith_getElem_self] at hs
        cases hs
        exact setInsert_nodup c [] List.nodup_nil
      · rw [insertWith_getElem_ne _ _ _ _ _ hip] at hs
        split at hs
        · exact hI1.nodup i s hs
        · split at hs
          · cases hs
            exact List.nodup_nil
          · cases hs
  · have hclen : p.index < (l.unlink c).children.length :=
      lt_length_of_getElem?_eq_some hch
    rw [link_eq_some l p c s0 hch]
    refine ⟨?_, ?_, ?_⟩
    · intro i s hs c' hc'
      by_cases hip : p.index = i
      · subst hip
        rw [List.getElem?_set_eq_of_lt _ hclen] at hs
        cases hs
        rcases (mem_setInsert c c' s0).mp hc' with h | h
        · subst h
          exact ⟨hc, p, insertWith_getElem_self _ _ _ _, hp, rfl⟩
        · obtain ⟨hcs', q, hq, hqps, hqi⟩ := hI1.childMem p.index s0 hch c' h
          have hne : c'.index ≠ c.index := by
            intro hh
            exact hA q (hh ▸ hq)
          refine ⟨hcs', q, ?_, hqps, hqi⟩
          rw [insertWith_getElem_ne _ _ _ _ _ hne,
            if_pos (lt_length_of_getElem?_eq_some hq)]
          exact hq
      · rw [List.getElem?_set_ne hip] at hs
        obtain ⟨hcs', q, hq, hqps, hqi⟩ := hI1.childMem i s hs c' hc'
        have hne : c'.index ≠ c.index := by
          intro hh
          exact hA q (hh ▸ hq)
        refine ⟨hcs', q, ?_, hqps, hqi⟩
        rw [insertWith_getElem_ne _ _ _ _ _ hne,
          if_pos (lt_length_of_getElem?_eq_some hq)]
        exact hq
    · intro i q hq
      by_cases hic : i = c.index
      · subst hic
        rw [insertWith_getElem_self] at hq
        cases hq
        refine ⟨hp, setInsert c s0, ?_, c,
          (mem_setInsert c c s0).mpr (Or.inl rfl), rfl⟩
        rw [List.getElem?_set_eq_of_lt _ hclen]
      · rw [insertWith_getElem_ne _ _ _ _ _ hic] at hq
        split at hq
        · obtain ⟨hqps, s1, hs1, c1, hc1, hc1i⟩ := hI1.parentSlot i q hq
          refine ⟨hqps, ?_⟩
          by_cases hqp : q.index = p.index
          · rw [hqp] at hs1 ⊢
            rw [hch] at hs1
            cases hs1
            refine ⟨setInsert c s0, ?_, c1,
              (mem_setInsert c c1 s0).mpr (Or.inr hc1), hc1i⟩
            rw [List.getElem?_set_eq_of_lt _ hclen]
          · refine ⟨s1, ?_, c1, hc1, hc1i⟩
            rw [List.getElem?_set_ne (fun hh => hqp hh.symm)]
            exact hs1
        · split at hq
          · cases hq
          · cases hq
    · intro i s hs
      by_cases hip : p.index = i
      · subst hip
        rw [List.getElem?_set_eq_of_lt _ hclen] at hs
        cases hs
        exact setInsert_nodup c s0 (hI1.nodup p.index s0 hch)
      · rw [List.getElem?_set_ne hip] at hs
        exact hI1.nodup i s hs

/-- An operation only uses ids drawn from the given parent/child id
collections. -/
def opOk (ps cs : List IdD) : LOp → Prop
  | .link p c => p ∈ ps ∧ c ∈ cs
  | .unlink c => c ∈ cs

instance (ps cs : List IdD) (op : LOp) : Decidable (opOk ps cs op) := by
  cases op <;> unfold opOk <;> infer_instance

/-- Helper: running well-scoped operations preserves the invariant. -/
theorem linksInv_foldl (ps cs : List IdD) (hinjc : IndexInjective cs) :
    ∀ ops : List LOp, ∀ l : RawLinksCompSet, LinksInv ps cs l →
      (∀ op ∈ ops, opOk ps cs op) →
      LinksInv ps cs (ops.foldl applyOp l) := by
  intro ops
  induction ops with
  | nil => intro l hI _; exact hI
  | cons op rest ih =>
    intro l hI hops
    rw [List.foldl_cons]
    refine ih _ ?_ (fun o ho => hops o (List.mem_cons_of_mem _ ho))
    have hop : opOk ps cs op := hops op (List.mem_cons_self _ _)
    cases op with
    | link p c => exact linksInv_link ps cs l p c hinjc hop.1 hop.2 hI
    | unlink c => exact linksInv_unlink ps cs l c hinjc hop hI

/-- Claim C8, amended.  For every sequence of link/unlink operations on
a set-backed relation map whose parent ids and child ids are each
index-injective (at most one generation in play per slot index, as the
validator protocol guarantees for live handles), the child-to-parent
map and the parent-to-children sets remain mutual inverses:
`get_parent(c) = Some(p)` iff `c ∈ get_children(p)` for every such
child `c` and parent `p`; in particular relinking removes the child
from the old parent's set. -/
theorem claim_C8_amended (ops : List LOp) (ps cs : List IdD)
    (hinjp : IndexInjective ps) (hinjc : IndexInjective cs)
    (hops : ∀ op ∈ ops, opOk ps cs op)
    (p : IdD) (hp : p ∈ ps) (c : IdD) (hc : c ∈ cs) :
    ((runOps ops).getParent c = some p ↔
      c ∈ ((runOps ops).getChildren p).getD []) := by
  have hI : LinksInv ps cs (runOps ops) :=
    linksInv_foldl ps cs hinjc ops RawLinksCompSet.default0
      (linksInv_default ps cs) hops
  constructor
  · intro hgp
    have hq : (runOps ops).parent[c.index]? = some (some p) := by
      unfold RawLinksCompSet.getParent at hgp
      rcases hx : (runOps ops).parent[c.index]? with _ | o
      · rw [hx] at hgp
        cases hgp
      · rw [hx] at hgp
        dsimp only at hgp
        rw [hgp]
    obtain ⟨hpps, s1, hs1, c1, hc1, hc1i⟩ := hI.parentSlot c.index p hq
    have hc1cs : c1 ∈ cs := (hI.childMem p.index s1 hs1 c1 hc1).1
    have hcc : c1 = c := hinjc c1 hc1cs c hc hc1i
    unfold RawLinksCompSet.getChildren
    rw [hs1]
    rw [← hcc]
    exact hc1
  · intro hmem
    unfold RawLinksCompSet.getChildren at hmem
    rcases hx : (runOps ops).children[p.index]? with _ | s1
    · rw [hx] at hmem
      cases hmem
    · rw [hx] at hmem
      simp only [Option.getD_some] at hmem
      obtain ⟨_, q, hq, hqps, hqi⟩ := hI.childMem p.index s1 hx c hmem
      have hqp : q = p := hinjp q hqps p hp hqi
      unfold RawLinksCompSet.getParent
      rw [hq, hqp]

/-- Claim C8, witness: one link on singleton id collections. -/
theorem claim_C8_amended_witness :
    RawLinksCompSet.getParent (runOps [.link ⟨0, 1⟩ ⟨0, 1⟩]) ⟨0, 1⟩
        = some ⟨0, 1⟩ ↔
      (⟨0, 1⟩ : IdD) ∈ (RawLinksCompSet.getChildren
        (runOps [.link ⟨0, 1⟩ ⟨0, 1⟩]) ⟨0, 1⟩).getD [] :=
  claim_C8_amended [.link ⟨0, 1⟩ ⟨0, 1⟩] [⟨0, 1⟩] [⟨0, 1⟩]
    (by decide) (by decide) (by decide) ⟨0, 1⟩ (by decide) ⟨0, 1⟩ (by decide)

/-! ### Claim C9: cascading deletion (`MapSet` flavour) -/

/-- `HashMap::get` on an association list keyed by full ids. -/
def mapGet {α : Type} : List (IdD × α) → IdD → Option α
  | [], _ => none
  | (k', v) :: t, k => if k' = k then some v else mapGet t k

/-- `HashMap::remove` on an association list: the removed value and the
remaining entries, or `none` when the key is absent. -/
def mapRemove {α : Type} : List (IdD × α) → IdD → Option (α × List (IdD × α))
  | [], _ => none
  | (k', v) :: t, k =>
    if k' = k then some (v, t)
    else
      match mapRemove t k with
      | none => none
      | some (v', t') => some (v', (k', v) :: t')

/-- `RawLinks<Parent, Child, MapSet>`: a dense child-indexed
`Option<Id<Parent>>` component and a hash map from parent ids to child
hash sets.  The `cfg(debug_assertions)` checksum fields, which none of
the modelled operations read, are omitted. -/
structure RawLinksMapSet where
  parent : List (Option IdD)
  children : List (IdD × List IdD)
deriving DecidableEq, Repr

/-- `get_parent` (MapSet). -/
def RawLinksMapSet.getParent (l : RawLinksMapSet) (c : IdD) : Option IdD :=
  match l.parent[c.index]? with
  | some o => o
  | none => none

/-- `get_children` (MapSet). -/
def RawLinksMapSet.getChildren (l : RawLinksMapSet) (p : IdD) : Option (List IdD) :=
  mapGet l.children p

/-- `unlink_parent` (MapSet): remove the parent's children entry and
clear each removed child's parent slot via `RawComponent::insert`
(whose panic on an out-of-range index is modelled by `none`). -/
def RawLinksMapSet.unlinkParent (l : RawLinksMapSet) (p : IdD) :
    Option RawLinksMapSet :=
  match mapRemove l.children p with
  | none => some l
  | some (s, rest) =>
    match s.foldlM (fun par c => RawComponent.insert par c.index none) l.parent with
    | none => none
    | some par => some ⟨par, rest⟩

/-- `kill_parent` (MapSet): `unlink_parent` after the debug-only
checksum increment (omitted: no modelled operation reads it). -/
def RawLinksMapSet.killParent (l : RawLinksMapSet) (p : IdD) :
    Option RawLinksMapSet :=
  l.unlinkParent p

/-- Helper: a missing key yields no `mapGet` result. -/
theorem mapGet_eq_none_of_not_mem {α : Type} (m : List (IdD × α)) (k : IdD)
    (h : k ∉ m.map Prod.fst) : mapGet m k = none := by
  induction m with
  | nil => rfl
  | cons e t ih =>
    obtain ⟨k', v⟩ := e
    unfold mapGet
    rw [if_neg (fun hk => h (by simp [hk]))]
    exact ih (fun hk => h (by simp [hk]))

/-- Helper: removing a present key of a duplicate-free map returns its
value, and the key is gone afterwards. -/
theorem mapRemove_spec {α : Type} (m : List (IdD × α)) (k : IdD) (v : α)
    (h : mapGet m k = some v) (hnd : (m.map Prod.fst).Nodup) :
    ∃ rest, mapRemove m k = some (v, rest) ∧ mapGet rest k = none := by
  induction m with
  | nil => cases h
  | cons e t ih =>
    obtain ⟨k', v'⟩ := e
    unfold mapGet at h
    unfold mapRemove
    rw [List.map_cons, List.nodup_cons] at hnd
    by_cases hk : k' = k
    · rw [if_pos hk] at h ⊢
      cases h
      refine ⟨t, rfl, ?_⟩
      refine mapGet_eq_none_of_not_mem t k ?_
      rw [← hk]
      exact hnd.1
    · rw [if_neg hk] at h ⊢
      obtain ⟨rest, hrem, hget⟩ := ih h hnd.2
      rw [hrem]
      refine ⟨(k', v') :: rest, rfl, ?_⟩
      unfold mapGet
      rw [if_neg hk]
      exact hget

/-- Helper: in-range `RawComponent::insert` overwrites in place. -/
theorem insert_lt {T : Type} (v : List T) (i : Nat) (x : T) (h : i < v.length) :
    RawComponent.insert v i x = some (v.set i x) := by
  unfold RawComponent.insert
  rw [if_pos h]

/-- Claim C9.  On a `MapSet` relation map, for every parent `P` whose
child set is `{c0, c1}` (children's parent slots in range, map keys
duplicate-free): `kill_parent(P)` succeeds, after it both `c0` and `c1`
have no parent, and `P` is absent from any subsequent `get_children`
query. -/
theorem claim_C9 (l : RawLinksMapSet) (P c0 c1 : IdD)
    (hch : mapGet l.children P = some [c0, c1])
    (hkeys : (l.children.map Prod.fst).Nodup)
    (h0 : c0.index < l.parent.length) (h1 : c1.index < l.parent.length) :
    ∃ l' : RawLinksMapSet, l.killParent P = some l' ∧
      l'.getParent c0 = none ∧ l'.getParent c1 = none ∧
      l'.getChildren P = none := by
  obtain ⟨rest, hrem, hget⟩ := mapRemove_spec l.children P [c0, c1] hch hkeys
  have hf1 : RawComponent.insert l.parent c0.index (none : Option IdD)
      = some (l.parent.set c0.index none) := insert_lt _ _ _ h0
  have hlen1 : c1.index < (l.parent.set c0.index none).length := by simpa using h1
  have hf2 : RawComponent.insert (l.parent.set c0.index none) c1.index
      (none : Option IdD)
      = some ((l.parent.set c0.index none).set c1.index none) :=
    insert_lt _ _ _ hlen1
  have hlen1' : c1.index < ((l.parent.set c0.index none).set c1.index none).length := by
    simpa using h1
  refine ⟨⟨(l.parent.set c0.index none).set c1.index none, rest⟩, ?_, ?_, ?_, ?_⟩
  · unfold RawLinksMapSet.killParent RawLinksMapSet.unlinkParent
    rw [hrem]
    dsimp only
    have hfold : ([c0, c1].foldlM
        (fun par c => RawComponent.insert par c.index (none : Option IdD)) l.parent)
        = some ((l.parent.set c0.index none).set c1.index none) := by
      simp [List.foldlM_cons, List.foldlM_nil, hf1, hf2]
    rw [hfold]
  · unfold RawLinksMapSet.getParent
    dsimp only
    by_cases h01 : c1.index = c0.index
    · rw [h01]
      rw [List.getElem?_set_eq_of_lt _ (by simpa using h0)]
    · rw [List.getElem?_set_ne h01]
      rw [List.getElem?_set_eq_of_lt _ h0]
  · unfold RawLinksMapSet.getParent
    dsimp only
    rw [List.getElem?_set_eq_of_lt _ hlen1]
  · unfold RawLinksMapSet.getChildren
    exact hget

/-- Claim C9, witness: a concrete map with parent `(0, gen 1)` owning
children `(0, gen 1)` and `(1, gen 1)`. -/
theorem claim_C9_witness :
    ∃ l' : RawLinksMapSet,
      RawLinksMapSet.killParent
          ⟨[some ⟨0, 1⟩, some ⟨0, 1⟩], [(⟨0, 1⟩, [⟨0, 1⟩, ⟨1, 1⟩])]⟩ ⟨0, 1⟩
        = some l' ∧
      l'.getParent ⟨0, 1⟩ = none ∧ l'.getParent ⟨1, 1⟩ = none ∧
      l'.getChildren ⟨0, 1⟩ = none :=
  claim_C9 ⟨[some ⟨0, 1⟩, some ⟨0, 1⟩], [(⟨0, 1⟩, [⟨0, 1⟩, ⟨1, 1⟩])]⟩
    ⟨0, 1⟩ ⟨0, 1⟩ ⟨1, 1⟩ (by decide) (by decide) (by decide) (by decide)

end GenId
